import Mathlib

/-!
# Verification of the JSON C-bindings example

A shallow embedding of `src/examples/c-bindings.c` (the `json_print`
pretty-printer over the C-ABI `Json` tagged union described in the spec),
together with a model, taken from the spec, of the allocation/release
contract of the library behind the binding (`json_deserialize` /
`json_free`).

Conventions of the embedding:
* Memory regions (string buffers, array element regions, object entry
  regions) are modelled as Lean lists of the values they hold; reading
  through a pointer at an index is `l[i]?`, which yields `none` exactly
  when the read would go outside the pointed-to region (a dangling or
  too-short pointer).
* Bytes are `Nat` (the value of the `unsigned char`).
* Output of `json_print` is the list of bytes written to stdout, or
  `none` if the traversal performed an invalid read.
* The C `unsigned long` expression `len - 1` is modelled by `Nat`
  truncated subtraction: for `len ≥ 1` both agree, and for `len = 0`
  (C wraps to `ULONG_MAX`, `Nat` gives `0`) the test `i < len - 1` is
  never reached because the loop body does not execute.
-/

/-- The C `struct JsonString { buf ; len }`: a pointer to a byte region
(modelled as the list of bytes readable through it) plus a length. -/
structure JsonString where
  buf : List Nat
  len : Nat
deriving DecidableEq, Repr

/-- The C `Json` tagged union.  One constructor per enumerated tag, each
holding the payload the discriminant selects (the union fields the other
tags would see hold undefined data and are not represented).  `Other`
stands for any discriminant outside the seven enumerated cases, which the
`default:` arm of `json_print` skips; it records the raw tag value.
The `number` payload is an IEEE-754 double, embedded by its exact rational
value (every finite double is a rational, and `json_print` only formats
it, never computes with it).  An object entry's `val` is a pointer to a
`Json`; the entry is modelled as the key together with the pointed-to
value. -/
inductive Json where
  | Null
  | True
  | False
  | Number (number : ℚ)
  | String (string : JsonString)
  | Array (elems : List Json) (len : Nat)
  | Object (elems : List (JsonString × Json)) (len : Nat)
  | Other (tag : Nat)

/-- The bytes `printf("%s", buf)` emits: everything up to (not including)
the first NUL byte. -/
def cstr (buf : List Nat) : List Nat :=
  buf.takeWhile (fun b => b ≠ 0)

/-- Decimal digit bytes of a natural number, most significant first
(`fuel`-driven worker; `fuel > n` suffices). -/
def natDigitsAux : Nat → Nat → List Nat
  | 0, _ => []
  | fuel + 1, n =>
    if n < 10 then [48 + n]
    else natDigitsAux fuel (n / 10) ++ [48 + n % 10]

/-- Decimal digit bytes of a natural number, most significant first. -/
def natDigits (n : Nat) : List Nat := natDigitsAux (n + 1) n

/-- Modelled from the spec: the text `printf("%f", x)` produces — "the
platform's default 6-digit fractional form of the IEEE-754 double".  The
libc formatting routine is not part of this repository's sources, so it is
modelled from those words: the absolute value, `q.num.natAbs / q.den`, is
rounded to six fractional digits (`scaled` is `|q|·10⁶ + 1/2` rounded
down, i.e. round-half-up at the midpoint; the inputs exercised here are
not midpoints, so the tie rule is immaterial), printed as the integer
part, a dot, and exactly six fractional digits, with a leading `-` for
negative values. -/
def fmtF (q : ℚ) : List Nat :=
  let scaled : Nat := (q.num.natAbs * 1000000 + q.den / 2) / q.den
  let intPart := scaled / 1000000
  let fracPart := scaled % 1000000
  let fracDigits := natDigits fracPart
  (if q.num < 0 then [45] else []) ++
    natDigits intPart ++ [46] ++
    (List.replicate (6 - fracDigits.length) 48 ++ fracDigits)

mutual

/-- Shallow embedding of `json_print` from `src/examples/c-bindings.c`:
dispatch on `json.tag`, returning the emitted bytes, or `none` if a read
through an element pointer fell outside the pointed-to region. -/
def json_print : Json → Option (List Nat)
  | .Null => some [110, 117, 108, 108]
  | .True => some [116, 114, 117, 101]
  | .False => some [102, 97, 108, 115, 101]
  | .Number x => some (fmtF x)
  | .String s => some ([34] ++ cstr s.buf ++ [34])
  | .Array elems len =>
    match printArrayLoop len 0 elems with
    | some body => some ([91] ++ body ++ [93])
    | none => none
  | .Object elems len =>
    match printObjectLoop len 0 elems with
    | some body => some ([123] ++ body ++ [125])
    | none => none
  | .Other _ => some []
termination_by j => sizeOf j
decreasing_by all_goals (simp_wf; try omega)

/-- The `for (i = 0; i < len; i++)` loop of the `Array` arm: `rest` is the
part of the element region from index `i` on (so `elems[i]` is its head;
an exhausted `rest` with `i < len` is a read past the region). -/
def printArrayLoop (len i : Nat) : List Json → Option (List Nat)
  | [] => if i < len then none else some []
  | e :: rest =>
    if i < len then
      match json_print e, printArrayLoop len (i + 1) rest with
      | some r, some tail =>
        some (r ++ (if i < len - 1 then [44, 32] else []) ++ tail)
      | _, _ => none
    else some []
termination_by rest => sizeOf rest
decreasing_by all_goals (simp_wf; try omega)

/-- The `for (i = 0; i < len; i++)` loop of the `Object` arm: per entry,
`printf("%s : ", key.buf)`, recurse on `*val`, then the separator test. -/
def printObjectLoop (len i : Nat) : List (JsonString × Json) → Option (List Nat)
  | [] => if i < len then none else some []
  | ent :: rest =>
    if i < len then
      match json_print ent.2, printObjectLoop len (i + 1) rest with
      | some r, some tail =>
        some (cstr ent.1.buf ++ [32, 58, 32] ++ r ++
          (if i < len - 1 then [44, 32] else []) ++ tail)
      | _, _ => none
    else some []
termination_by rest => sizeOf rest
decreasing_by all_goals (obtain ⟨k, v⟩ := ent; simp_wf; try omega)

end

/-! ## Fuel-indexed variant of the printer

`json_printF fuel j` runs the same recursion as `json_print` but gives up
(returns `none`) when `fuel` recursion levels are exhausted.  It witnesses
termination: a fuel of `sizeOf j` always suffices (proved below), so the
depth-first recursion of the C function returns on every finite tree. -/

/-- The `Array` loop with the element printer passed as a parameter. -/
def arrayLoopF (pr : Json → Option (List Nat)) (len : Nat) :
    Nat → List Json → Option (List Nat)
  | i, [] => if i < len then none else some []
  | i, e :: rest =>
    if i < len then
      match pr e, arrayLoopF pr len (i + 1) rest with
      | some r, some tail =>
        some (r ++ (if i < len - 1 then [44, 32] else []) ++ tail)
      | _, _ => none
    else some []

/-- The `Object` loop with the value printer passed as a parameter. -/
def objectLoopF (pr : Json → Option (List Nat)) (len : Nat) :
    Nat → List (JsonString × Json) → Option (List Nat)
  | i, [] => if i < len then none else some []
  | i, ent :: rest =>
    if i < len then
      match pr ent.2, objectLoopF pr len (i + 1) rest with
      | some r, some tail =>
        some (cstr ent.1.buf ++ [32, 58, 32] ++ r ++
          (if i < len - 1 then [44, 32] else []) ++ tail)
      | _, _ => none
    else some []

/-- `json_print` with an explicit recursion-depth budget. -/
def json_printF : Nat → Json → Option (List Nat)
  | 0, _ => none
  | fuel + 1, j =>
    match j with
    | .Null => some [110, 117, 108, 108]
    | .True => some [116, 114, 117, 101]
    | .False => some [102, 97, 108, 115, 101]
    | .Number x => some (fmtF x)
    | .String s => some ([34] ++ cstr s.buf ++ [34])
    | .Array elems len =>
      match arrayLoopF (json_printF fuel) len 0 elems with
      | some body => some ([91] ++ body ++ [93])
      | none => none
    | .Object elems len =>
      match objectLoopF (json_printF fuel) len 0 elems with
      | some body => some ([123] ++ body ++ [125])
      | none => none
    | .Other _ => some []

/-! ## Spec-side rendering combinators

These phrase the spec's description of the `Array`/`Object` output — "the
renderings of the elements in index order, separated by `, `" — so the
claims can compare the loop-with-separator-test of the code against them. -/

/-- The renderings of a list of values, in order (`none` if any rendering
fails). -/
def renderAll : List Json → Option (List (List Nat))
  | [] => some []
  | e :: rest =>
    match json_print e, renderAll rest with
    | some r, some rs => some (r :: rs)
    | _, _ => none

/-- The rendering of one object entry: the key as emitted by
`printf("%s : ", key.buf)` followed by the rendering of the value. -/
def renderEntry (ent : JsonString × Json) : Option (List Nat) :=
  match json_print ent.2 with
  | some r => some (cstr ent.1.buf ++ [32, 58, 32] ++ r)
  | none => none

/-- The renderings of a list of object entries, in stored order. -/
def renderEntries : List (JsonString × Json) → Option (List (List Nat))
  | [] => some []
  | ent :: rest =>
    match renderEntry ent, renderEntries rest with
    | some r, some rs => some (r :: rs)
    | _, _ => none

/-! ## Structural equality

Two trees are structurally equal when they have the same tags, payloads
and lengths and the same pointed-to contents: for collections only the
`len` values actually pointed to are compared (bytes of element regions
beyond `len` are not part of the tree). -/

mutual

/-- Structural equality of two `Json` trees (same tag, same payload, same
`len`, and structurally equal pointed-to contents). -/
def structEq : Json → Json → Bool
  | .Null, .Null => true
  | .True, .True => true
  | .False, .False => true
  | .Number x, .Number y => x == y
  | .String s, .String t => s == t
  | .Array e1 l1, .Array e2 l2 => l1 == l2 && structEqElems l1 0 e1 e2
  | .Object e1 l1, .Object e2 l2 => l1 == l2 && structEqEntries l1 0 e1 e2
  | .Other t1, .Other t2 => t1 == t2
  | _, _ => false
termination_by j => sizeOf j
decreasing_by all_goals (simp_wf; try omega)

/-- Pointwise structural equality of the first `len - i` pointed-to
elements of two element regions. -/
def structEqElems (len i : Nat) : List Json → List Json → Bool
  | xs, ys =>
    if i < len then
      match xs, ys with
      | x :: xs', y :: ys' => structEq x y && structEqElems len (i + 1) xs' ys'
      | _, _ => false
    else true
termination_by xs => sizeOf xs
decreasing_by all_goals (simp_wf; try omega)

/-- Pointwise structural equality of the first `len - i` pointed-to
entries of two entry regions (equal keys, structurally equal values). -/
def structEqEntries (len i : Nat) :
    List (JsonString × Json) → List (JsonString × Json) → Bool
  | xs, ys =>
    if i < len then
      match xs, ys with
      | x :: xs', y :: ys' =>
        x.1 == y.1 && structEq x.2 y.2 && structEqEntries len (i + 1) xs' ys'
      | _, _ => false
    else true
termination_by xs => sizeOf xs
decreasing_by all_goals (obtain ⟨k, v⟩ := x; simp_wf; try omega)

end

/-! ## Allocation model of `json_deserialize` / `json_free`

The deserializer and releaser live in the library behind the C boundary
and their code is not under `src/`; only the call site
(`json_free(json_deserialize(text))` in `main`) is.  Their
allocation/release contract is therefore modelled from the spec. -/

/-- Modelled from the spec: the allocations of a tree returned by
`json_deserialize` (whose code is not under `src/`).  Per §3/§6 of the
spec, a `String` node owns its byte buffer, an `Array` node owns its
contiguous element region, and an `Object` node owns its entry region
plus, per entry, the key's byte buffer and the pointed-to value box
(`val` is a handle, "held indirectly").  Scalars own nothing.  Each owned
allocation is identified by an id (`Nat`); an entry is
`(keyBufId, valBoxId, value)`. -/
inductive AllocTree where
  | scalar
  | str (bufId : Nat)
  | arr (elemsId : Nat) (elems : List AllocTree)
  | obj (elemsId : Nat) (elems : List (Nat × Nat × AllocTree))

mutual

/-- Modelled from the spec: the ids of the allocations "transitively
owned by the tree" (§4.2), listed root first. -/
def owned : AllocTree → List Nat
  | .scalar => []
  | .str b => [b]
  | .arr e cs => e :: ownedList cs
  | .obj e es => e :: ownedEntries es
termination_by t => sizeOf t
decreasing_by all_goals (simp_wf; try omega)

/-- Owned allocations of an array's element region, in order. -/
def ownedList : List AllocTree → List Nat
  | [] => []
  | c :: cs => owned c ++ ownedList cs
termination_by cs => sizeOf cs
decreasing_by all_goals (simp_wf; try omega)

/-- Owned allocations of an object's entry region, in order. -/
def ownedEntries : List (Nat × Nat × AllocTree) → List Nat
  | [] => []
  | ent :: es => ent.1 :: ent.2.1 :: (owned ent.2.2 ++ ownedEntries es)
termination_by es => sizeOf es
decreasing_by all_goals (obtain ⟨k, v, t⟩ := ent; simp_wf; try omega)

end

mutual

/-- Modelled from the spec: `json_free` (code not under `src/`).  Per
§4.2/§9 the release routine "walks and frees": it frees each descendant's
allocations before the region that holds it — children first, then the
node's own buffer — and returns the sequence of `free` calls it makes. -/
def json_free : AllocTree → List Nat
  | .scalar => []
  | .str b => [b]
  | .arr e cs => freeList cs ++ [e]
  | .obj e es => freeEntries es ++ [e]
termination_by t => sizeOf t
decreasing_by all_goals (simp_wf; try omega)

/-- Frees performed for an array's elements, then nothing else. -/
def freeList : List AllocTree → List Nat
  | [] => []
  | c :: cs => json_free c ++ freeList cs
termination_by cs => sizeOf cs
decreasing_by all_goals (simp_wf; try omega)

/-- Frees performed for an object's entries: per entry the key buffer, the
value's own allocations, then the value box. -/
def freeEntries : List (Nat × Nat × AllocTree) → List Nat
  | [] => []
  | ent :: es => ent.1 :: (json_free ent.2.2 ++ (ent.2.1 :: freeEntries es))
termination_by es => sizeOf es
decreasing_by all_goals (obtain ⟨k, v, t⟩ := ent; simp_wf; try omega)

end

/-! ## Helper lemmas -/

theorem json_sizeOf_pos (j : Json) : 0 < sizeOf j := by
  cases j <;> (simp; try omega)

theorem arrayLoopF_congr (pr : Json → Option (List Nat)) (len : Nat) :
    ∀ (i : Nat) (rest : List Json), (∀ e ∈ rest, pr e = json_print e) →
      arrayLoopF pr len i rest = printArrayLoop len i rest := by
  intro i rest
  induction rest generalizing i with
  | nil => intro _; simp [arrayLoopF, printArrayLoop]
  | cons e rest ih =>
    intro h
    simp only [arrayLoopF, printArrayLoop]
    rw [h e (by simp), ih (i + 1) (fun x hx => h x (by simp [hx]))]

theorem objectLoopF_congr (pr : Json → Option (List Nat)) (len : Nat) :
    ∀ (i : Nat) (rest : List (JsonString × Json)),
      (∀ ent ∈ rest, pr ent.2 = json_print ent.2) →
      objectLoopF pr len i rest = printObjectLoop len i rest := by
  intro i rest
  induction rest generalizing i with
  | nil => intro _; simp [objectLoopF, printObjectLoop]
  | cons ent rest ih =>
    intro h
    simp only [objectLoopF, printObjectLoop]
    rw [h ent (by simp), ih (i + 1) (fun x hx => h x (by simp [hx]))]

theorem json_printF_eq : ∀ (fuel : Nat) (j : Json), sizeOf j ≤ fuel →
    json_printF fuel j = json_print j := by
  intro fuel
  induction fuel with
  | zero =>
    intro j h
    exact absurd (Nat.lt_of_lt_of_le (json_sizeOf_pos j) h) (by omega)
  | succ fuel ih =>
    intro j h
    cases j with
    | Null => simp [json_printF, json_print]
    | True => simp [json_printF, json_print]
    | False => simp [json_printF, json_print]
    | Number x => simp [json_printF, json_print]
    | String s => simp [json_printF, json_print]
    | Other t => simp [json_printF, json_print]
    | Array elems len =>
      have hsz : sizeOf (Json.Array elems len) = 1 + sizeOf elems + sizeOf len := by
        simp
      have hel : ∀ e ∈ elems, json_printF fuel e = json_print e := by
        intro e he
        have h1 : sizeOf e < sizeOf elems := List.sizeOf_lt_of_mem he
        exact ih e (by omega)
      simp only [json_printF, json_print]
      rw [arrayLoopF_congr _ _ _ _ hel]
    | Object elems len =>
      have hsz : sizeOf (Json.Object elems len) = 1 + sizeOf elems + sizeOf len := by
        simp
      have hent : ∀ ent ∈ elems, json_printF fuel ent.2 = json_print ent.2 := by
        intro ent he
        have h1 : sizeOf ent < sizeOf elems := List.sizeOf_lt_of_mem he
        have h2 : sizeOf ent.2 < sizeOf ent := by
          obtain ⟨k, v⟩ := ent; simp; try omega
        exact ih ent.2 (by omega)
      simp only [json_printF, json_print]
      rw [objectLoopF_congr _ _ _ _ hent]

theorem intercalate_nil_eq (sep : List Nat) :
    List.intercalate sep ([] : List (List Nat)) = [] := by
  simp [List.intercalate]

theorem intercalate_single (sep a : List Nat) : List.intercalate sep [a] = a := by
  simp [List.intercalate]

theorem intercalate_cons₂ (sep a b : List Nat) (l : List (List Nat)) :
    List.intercalate sep (a :: b :: l) = a ++ sep ++ List.intercalate sep (b :: l) := by
  simp [List.intercalate]

theorem renderAll_length :
    ∀ {l : List Json} {rs : List (List Nat)}, renderAll l = some rs →
      rs.length = l.length := by
  intro l
  induction l with
  | nil => intro rs h; simp [renderAll] at h; simp [← h]
  | cons e rest ih =>
    intro rs h
    simp only [renderAll] at h
    cases hje : json_print e with
    | none => rw [hje] at h; simp at h
    | some r =>
      cases hra : renderAll rest with
      | none => rw [hje, hra] at h; simp at h
      | some rs' =>
        rw [hje, hra] at h
        simp at h
        simp [← h, ih hra]

theorem renderEntries_length :
    ∀ {l : List (JsonString × Json)} {rs : List (List Nat)},
      renderEntries l = some rs → rs.length = l.length := by
  intro l
  induction l with
  | nil => intro rs h; simp [renderEntries] at h; simp [← h]
  | cons e rest ih =>
    intro rs h
    simp only [renderEntries] at h
    cases hje : renderEntry e with
    | none => rw [hje] at h; simp at h
    | some r =>
      cases hra : renderEntries rest with
      | none => rw [hje, hra] at h; simp at h
      | some rs' =>
        rw [hje, hra] at h
        simp at h
        simp [← h, ih hra]

theorem printArrayLoop_renderAll (len : Nat) :
    ∀ (i : Nat) (rest : List Json), len ≤ i + rest.length →
      printArrayLoop len i rest =
        (renderAll (rest.take (len - i))).map (List.intercalate [44, 32]) := by
  intro i rest
  induction rest generalizing i with
  | nil =>
    intro h
    have hi : ¬ i < len := by simp at h; omega
    have h0 : len - i = 0 := by omega
    simp [printArrayLoop, renderAll, hi, h0, intercalate_nil_eq]
  | cons e rest ih =>
    intro h
    by_cases hi : i < len
    · have htake : (e :: rest).take (len - i) = e :: rest.take (len - i - 1) := by
        have hs : len - i = (len - i - 1) + 1 := by omega
        rw [hs]; rfl
      rw [htake]
      simp only [printArrayLoop, hi, if_true, renderAll]
      rw [ih (i + 1) (by simp at h ⊢; omega)]
      have hsub : len - (i + 1) = len - i - 1 := by omega
      rw [hsub]
      cases hje : json_print e with
      | none => simp
      | some r =>
        cases hra : renderAll (rest.take (len - i - 1)) with
        | none => simp
        | some rs =>
          simp only [Option.map_some']
          by_cases hlast : i < len - 1
          · have hlen : rs.length = len - i - 1 := by
              rw [renderAll_length hra]
              simp at h ⊢
              omega
            obtain ⟨r', rs'⟩ : ∃ r' rs', rs = r' :: rs' := by
              cases rs with
              | nil => simp at hlen; omega
              | cons a as => exact ⟨a, as, rfl⟩
            obtain ⟨rs'', hrs⟩ := rs'
            subst hrs
            simp [hlast, intercalate_cons₂]
          · have hi1 : len - i - 1 = 0 := by omega
            have hrs : rs = [] := by
              have := renderAll_length hra
              rw [hi1] at this
              simp at this
              simp [this]
            subst hrs
            simp [hlast, intercalate_single, intercalate_nil_eq]
    · have h0 : len - i = 0 := by omega
      simp [printArrayLoop, hi, h0, renderAll, intercalate_nil_eq]

theorem printObjectLoop_renderEntries (len : Nat) :
    ∀ (i : Nat) (rest : List (JsonString × Json)), len ≤ i + rest.length →
      printObjectLoop len i rest =
        (renderEntries (rest.take (len - i))).map (List.intercalate [44, 32]) := by
  intro i rest
  induction rest generalizing i with
  | nil =>
    intro h
    have hi : ¬ i < len := by simp at h; omega
    have h0 : len - i = 0 := by omega
    simp [printObjectLoop, renderEntries, hi, h0, intercalate_nil_eq]
  | cons ent rest ih =>
    intro h
    by_cases hi : i < len
    · have htake : (ent :: rest).take (len - i) = ent :: rest.take (len - i - 1) := by
        have hs : len - i = (len - i - 1) + 1 := by omega
        rw [hs]; rfl
      rw [htake]
      simp only [printObjectLoop, hi, if_true, renderEntries, renderEntry]
      rw [ih (i + 1) (by simp at h ⊢; omega)]
      have hsub : len - (i + 1) = len - i - 1 := by omega
      rw [hsub]
      cases hje : json_print ent.2 with
      | none => simp
      | some r =>
        cases hra : renderEntries (rest.take (len - i - 1)) with
        | none => simp
        | some rs =>
          simp only [Option.map_some']
          by_cases hlast : i < len - 1
          · have hlen : rs.length = len - i - 1 := by
              rw [renderEntries_length hra]
              simp at h ⊢
              omega
            obtain ⟨r', rs'⟩ : ∃ r' rs', rs = r' :: rs' := by
              cases rs with
              | nil => simp at hlen; omega
              | cons a as => exact ⟨a, as, rfl⟩
            obtain ⟨rs'', hrs⟩ := rs'
            subst hrs
            simp [hlast, intercalate_cons₂]
          · have hi1 : len - i - 1 = 0 := by omega
            have hrs : rs = [] := by
              have hl := renderEntries_length hra
              rw [hi1] at hl
              simpa using hl
            subst hrs
            simp [hlast, intercalate_single, intercalate_nil_eq]
    · have h0 : len - i = 0 := by omega
      simp [printObjectLoop, hi, h0, renderEntries, intercalate_nil_eq]

theorem structEqElems_printLoop (len : Nat) :
    ∀ (i : Nat) (xs ys : List Json),
      (∀ x ∈ xs, ∀ y, structEq x y = true → json_print x = json_print y) →
      structEqElems len i xs ys = true →
      printArrayLoop len i xs = printArrayLoop len i ys := by
  intro i xs
  induction xs generalizing i with
  | nil =>
    intro ys H h
    by_cases hi : i < len
    · cases ys <;> simp [structEqElems, hi] at h
    · cases ys <;> simp [printArrayLoop, hi]
  | cons x xs ih =>
    intro ys H h
    by_cases hi : i < len
    · cases ys with
      | nil => simp [structEqElems, hi] at h
      | cons y ys' =>
        simp [structEqElems, hi] at h
        obtain ⟨hxy, hrest⟩ := h
        simp only [printArrayLoop, hi, if_true]
        rw [H x (by simp) y hxy,
          ih (i + 1) ys' (fun u hu => H u (by simp [hu])) hrest]
    · cases ys <;> simp [printArrayLoop, hi]

theorem structEqEntries_printLoop (len : Nat) :
    ∀ (i : Nat) (xs ys : List (JsonString × Json)),
      (∀ x ∈ xs, ∀ y, structEq x.2 y = true → json_print x.2 = json_print y) →
      structEqEntries len i xs ys = true →
      printObjectLoop len i xs = printObjectLoop len i ys := by
  intro i xs
  induction xs generalizing i with
  | nil =>
    intro ys H h
    by_cases hi : i < len
    · cases ys <;> simp [structEqEntries, hi] at h
    · cases ys <;> simp [printObjectLoop, hi]
  | cons x xs ih =>
    intro ys H h
    by_cases hi : i < len
    · cases ys with
      | nil => simp [structEqEntries, hi] at h
      | cons y ys' =>
        simp [structEqEntries, hi] at h
        obtain ⟨⟨hkey, hxy⟩, hrest⟩ := h
        simp only [printObjectLoop, hi, if_true]
        rw [hkey, H x (by simp) y.2 hxy,
          ih (i + 1) ys' (fun u hu => H u (by simp [hu])) hrest]
    · cases ys <;> simp [printObjectLoop, hi]

theorem structEq_print_aux :
    ∀ (n : Nat) (a b : Json), sizeOf a ≤ n → structEq a b = true →
      json_print a = json_print b := by
  intro n
  induction n with
  | zero =>
    intro a b hsz _
    exact absurd (Nat.lt_of_lt_of_le (json_sizeOf_pos a) hsz) (by omega)
  | succ n ih =>
    intro a b hsz h
    cases a with
    | Null =>
      cases b <;> simp [structEq] at h
      rfl
    | True =>
      cases b <;> simp [structEq] at h
      rfl
    | False =>
      cases b <;> simp [structEq] at h
      rfl
    | Number x =>
      cases b <;> simp [structEq] at h
      rw [h]
    | String s =>
      cases b <;> simp [structEq] at h
      rw [h]
    | Other t =>
      cases b <;> simp [structEq] at h
      rw [h]
    | Array e1 l1 =>
      cases b <;> simp [structEq] at h
      obtain ⟨hl, hel⟩ := h
      subst hl
      have hsza : sizeOf (Json.Array e1 l1) = 1 + sizeOf e1 + sizeOf l1 := by simp
      have H : ∀ x ∈ e1, ∀ y, structEq x y = true → json_print x = json_print y := by
        intro x hx y hxy
        have h1 : sizeOf x < sizeOf e1 := List.sizeOf_lt_of_mem hx
        exact ih x y (by omega) hxy
      simp only [json_print]
      rw [structEqElems_printLoop l1 0 e1 _ H hel]
    | Object e1 l1 =>
      cases b <;> simp [structEq] at h
      obtain ⟨hl, hel⟩ := h
      subst hl
      have hsza : sizeOf (Json.Object e1 l1) = 1 + sizeOf e1 + sizeOf l1 := by simp
      have H : ∀ x ∈ e1, ∀ y, structEq x.2 y = true → json_print x.2 = json_print y := by
        intro x hx y hxy
        have h1 : sizeOf x < sizeOf e1 := List.sizeOf_lt_of_mem hx
        have h2 : sizeOf x.2 < sizeOf x := by
          obtain ⟨k, v⟩ := x; simp; try omega
        exact ih x.2 y (by omega) hxy
      simp only [json_print]
      rw [structEqEntries_printLoop l1 0 e1 _ H hel]

theorem allocTree_sizeOf_pos (t : AllocTree) : 0 < sizeOf t := by
  cases t <;> (simp; try omega)

theorem freeList_perm (cs : List AllocTree)
    (H : ∀ c ∈ cs, (json_free c).Perm (owned c)) :
    (freeList cs).Perm (ownedList cs) := by
  induction cs with
  | nil => simp [freeList, ownedList]
  | cons c cs ih =>
    simp only [freeList, ownedList]
    exact (H c (by simp)).append (ih (fun u hu => H u (by simp [hu])))

theorem freeEntries_perm (es : List (Nat × Nat × AllocTree))
    (H : ∀ e ∈ es, (json_free e.2.2).Perm (owned e.2.2)) :
    (freeEntries es).Perm (ownedEntries es) := by
  induction es with
  | nil => simp [freeEntries, ownedEntries]
  | cons e es ih =>
    simp only [freeEntries, ownedEntries]
    refine List.Perm.cons _ (List.Perm.trans List.perm_middle ?_)
    exact ((H e (by simp)).append (ih (fun u hu => H u (by simp [hu])))).cons _

theorem json_free_perm_aux :
    ∀ (n : Nat) (t : AllocTree), sizeOf t ≤ n → (json_free t).Perm (owned t) := by
  intro n
  induction n with
  | zero =>
    intro t h
    exact absurd (Nat.lt_of_lt_of_le (allocTree_sizeOf_pos t) h) (by omega)
  | succ n ih =>
    intro t h
    cases t with
    | scalar => simp [json_free, owned]
    | str b => simp [json_free, owned]
    | arr e cs =>
      have hsz : sizeOf (AllocTree.arr e cs) = 1 + sizeOf e + sizeOf cs := by simp
      have H : ∀ c ∈ cs, (json_free c).Perm (owned c) := fun c hc =>
        ih c (by have := List.sizeOf_lt_of_mem hc; omega)
      simp only [json_free, owned]
      exact List.perm_append_comm.trans ((freeList_perm cs H).cons e)
    | obj e es =>
      have hsz : sizeOf (AllocTree.obj e es) = 1 + sizeOf e + sizeOf es := by simp
      have H : ∀ ent ∈ es, (json_free ent.2.2).Perm (owned ent.2.2) := by
        intro ent hent
        have h1 : sizeOf ent < sizeOf es := List.sizeOf_lt_of_mem hent
        have h2 : sizeOf ent.2.2 < sizeOf ent := by
          obtain ⟨k, v, u⟩ := ent; simp; try omega
        exact ih ent.2.2 (by omega)
      simp only [json_free, owned]
      exact List.perm_append_comm.trans ((freeEntries_perm es H).cons e)

theorem cstr_take :
    ∀ (buf : List Nat) (len : Nat), buf[len]? = some 0 →
      (∀ b ∈ buf.take len, b ≠ 0) → cstr buf = buf.take len := by
  intro buf
  induction buf with
  | nil => intro len hterm _; simp at hterm
  | cons b rest ih =>
    intro len hterm hnul
    cases len with
    | zero =>
      simp at hterm
      simp [cstr, List.takeWhile, hterm]
    | succ n =>
      have hb : b ≠ 0 := hnul b (by simp)
      have hc : cstr rest = rest.take n := by
        apply ih n (by simpa using hterm)
        intro u hu
        exact hnul u (by simp [hu])
      simp [cstr, List.takeWhile, hb] at hc ⊢
      exact hc

/-! ## Claim theorems -/

/-- C1: for every `Json` value whose tag is `Array`, `json_print` emits
exactly `[`, then the renderings of `elems[0] .. elems[len-1]` in index
order with the two-byte separator `, ` between consecutive elements and no
trailing separator, then `]` (the `len ≤ elems.length` hypothesis says the
element pointer really points at `len` values; with `len = 0` the right
side is `some "[]"`). -/
theorem json_print_array_intercalate (elems : List Json) (len : Nat)
    (h : len ≤ elems.length) :
    json_print (.Array elems len) =
      (renderAll (elems.take len)).map
        (fun rs => [91] ++ List.intercalate [44, 32] rs ++ [93]) := by
  have hl := printArrayLoop_renderAll len 0 elems (by simpa using h)
  simp only [Nat.sub_zero] at hl
  simp only [json_print, hl]
  cases renderAll (elems.take len) <;> simp

/-- Witness for C1 at the two-element array `[null, true]`. -/
theorem json_print_array_intercalate_witness :
    2 ≤ ([Json.Null, Json.True] : List Json).length ∧
    json_print (.Array [Json.Null, Json.True] 2) =
      (renderAll (([Json.Null, Json.True] : List Json).take 2)).map
        (fun rs => [91] ++ List.intercalate [44, 32] rs ++ [93]) :=
  ⟨by simp, json_print_array_intercalate [Json.Null, Json.True] 2 (by simp)⟩

/-- C2 counterexample: an object entry whose key buffer holds the three
bytes `k NUL x` (then the terminator) is NOT printed as its raw key bytes
`[107, 0, 120]`: `printf("%s : ", key.buf)` stops at the embedded NUL, so
the code emits `{k : null}` and not the claimed byte sequence. -/
theorem json_print_object_nul_key_cex :
    json_print (.Object [(⟨[107, 0, 120, 0], 3⟩, Json.Null)] 1) ≠
      some ([123] ++ [107, 0, 120] ++ [32, 58, 32] ++
        [110, 117, 108, 108] ++ [125]) := by
  have h : json_print (.Object [(⟨[107, 0, 120, 0], 3⟩, Json.Null)] 1) =
      some [123, 107, 32, 58, 32, 110, 117, 108, 108, 125] :=
    (json_printF_eq (sizeOf (Json.Object [(⟨[107, 0, 120, 0], 3⟩, Json.Null)] 1))
      _ le_rfl).symm.trans (by decide)
  rw [h]
  decide

/-- C2 (amended): for every `Json` value whose tag is `Object` (with the
entry pointer really pointing at `len` entries), `json_print` emits `{`,
then for each entry in stored order the key bytes up to the first NUL of
the key buffer (C-string semantics — all of the key's bytes exactly when
they are NUL-free) without quotes, then ` : `, then the rendering of the
entry's value, with `, ` between consecutive entries and no trailing
separator, then `}`; an `Object` with `len = 0` renders as `{}`. -/
theorem json_print_object_intercalate (elems : List (JsonString × Json))
    (len : Nat) (h : len ≤ elems.length) :
    json_print (.Object elems len) =
      (renderEntries (elems.take len)).map
        (fun rs => [123] ++ List.intercalate [44, 32] rs ++ [125]) := by
  have hl := printObjectLoop_renderEntries len 0 elems (by simpa using h)
  simp only [Nat.sub_zero] at hl
  simp only [json_print, hl]
  cases renderEntries (elems.take len) <;> simp

/-- Witness for C2 at the one-entry object `{a : true}`. -/
theorem json_print_object_intercalate_witness :
    1 ≤ ([(⟨[97, 0], 1⟩, Json.True)] : List (JsonString × Json)).length ∧
    json_print (.Object [(⟨[97, 0], 1⟩, Json.True)] 1) =
      (renderEntries (([(⟨[97, 0], 1⟩, Json.True)] :
          List (JsonString × Json)).take 1)).map
        (fun rs => [123] ++ List.intercalate [44, 32] rs ++ [125]) :=
  ⟨by simp, json_print_object_intercalate [(⟨[97, 0], 1⟩, Json.True)] 1 (by simp)⟩

/-- C3 counterexample: a `String` whose buffer holds the three bytes
`h NUL i` (then the terminator), `len = 3`, is NOT printed as a quote, all
three decoded bytes, and a quote: `printf("\"%s\"", buf)` stops at the
embedded NUL and emits `"h"`, so length is not authoritative for the
printer. -/
theorem json_print_string_nul_cex :
    json_print (.String ⟨[104, 0, 105, 0], 3⟩) ≠
      some ([34] ++ [104, 0, 105] ++ [34]) := by
  have h : json_print (.String ⟨[104, 0, 105, 0], 3⟩) = some [34, 104, 34] :=
    (json_printF_eq (sizeOf (Json.String ⟨[104, 0, 105, 0], 3⟩))
      _ le_rfl).symm.trans (by decide)
  rw [h]
  decide

/-- C3 (amended): for every `Json` value whose tag is `String`,
`json_print` emits one ASCII double quote, then the buffer's bytes up to
(not including) the first NUL — which are exactly the `len` decoded bytes
whenever none of them is NUL and the NUL-terminator invariant
`buf[len] = 0` holds — then one closing double quote; with an embedded NUL
the output is truncated at it (C-string semantics, `len` ignored). -/
theorem json_print_string_upto_nul (s : JsonString)
    (hterm : s.buf[s.len]? = some 0) (hnul : ∀ b ∈ s.buf.take s.len, b ≠ 0) :
    json_print (.String s) = some ([34] ++ s.buf.take s.len ++ [34]) := by
  have hc := cstr_take s.buf s.len hterm hnul
  simp [json_print, hc]

/-- Witness for C3 at the string `"hi"` (buffer `h i NUL`, length 2). -/
theorem json_print_string_upto_nul_witness :
    (JsonString.mk [104, 105, 0] 2).buf[(JsonString.mk [104, 105, 0] 2).len]? =
        some 0 ∧
    (∀ b ∈ (JsonString.mk [104, 105, 0] 2).buf.take
        (JsonString.mk [104, 105, 0] 2).len, b ≠ 0) ∧
    json_print (.String ⟨[104, 105, 0], 2⟩) = some [34, 104, 105, 34] := by
  have h1 : (JsonString.mk [104, 105, 0] 2).buf[(JsonString.mk [104, 105, 0] 2).len]? =
      some 0 := by decide
  have h2 : ∀ b ∈ (JsonString.mk [104, 105, 0] 2).buf.take
      (JsonString.mk [104, 105, 0] 2).len, b ≠ 0 := by decide
  refine ⟨h1, h2, ?_⟩
  have h3 := json_print_string_upto_nul ⟨[104, 105, 0], 2⟩ h1 h2
  simpa using h3

/-- C4: `json_print` emits exactly `null` for tag `Null`, `true` for tag
`True` and `false` for tag `False`, with no surrounding characters. -/
theorem json_print_scalar_literals :
    json_print Json.Null = some [110, 117, 108, 108] ∧
    json_print Json.True = some [116, 114, 117, 101] ∧
    json_print Json.False = some [102, 97, 108, 115, 101] := by
  refine ⟨?_, ?_, ?_⟩ <;> simp [json_print]

/-- C5: for a `Number` whose payload is the double `12.0`, `json_print`
emits exactly `12.000000` (the bytes of the platform's default 6-digit
fractional form, per the `fmtF` model of `printf("%f", ...)`). -/
theorem json_print_number_twelve :
    json_print (Json.Number 12) = some [49, 50, 46, 48, 48, 48, 48, 48, 48] :=
  (json_printF_eq (sizeOf (Json.Number 12)) _ le_rfl).symm.trans (by decide)

/-- C6: for every `Json` value whose discriminant is outside the seven
enumerated cases (the `Other` constructor), `json_print` emits nothing at
all — it succeeds with empty output, the `default:` arm of the switch. -/
theorem json_print_unknown_skipped (tag : Nat) :
    json_print (Json.Other tag) = some [] := by
  simp [json_print]

/-- C7: for `Array` or `Object` values with `len = 0`, `json_print` never
reads through the element pointer: whatever the pointed-to region holds —
including nothing at all (a null or dangling `elems`, modelled by regions
through which every read fails) — it emits exactly `[]` resp. `{}` and
succeeds. -/
theorem json_print_empty_no_deref (elems : List Json)
    (entries : List (JsonString × Json)) :
    json_print (.Array elems 0) = some [91, 93] ∧
    json_print (.Object entries 0) = some [123, 125] := by
  constructor
  · cases elems with
    | nil => simp [json_print, printArrayLoop]
    | cons e rest => simp [json_print, printArrayLoop]
  · cases entries with
    | nil => simp [json_print, printObjectLoop]
    | cons e rest => simp [json_print, printObjectLoop]

/-- C8 (against the spec-modelled allocation contract): for a tree whose
transitively owned allocations are pairwise distinct — the spec's
guarantee for every tree `json_deserialize` returns — `json_free` frees a
permutation of exactly the owned allocations (nothing leaked, nothing
foreign freed), and each owned allocation is freed exactly once (no
double-free). -/
theorem json_free_exact_reclaim (t : AllocTree) (h : (owned t).Nodup) :
    (json_free t).Perm (owned t) ∧
    ∀ a ∈ owned t, (json_free t).count a = 1 := by
  have hp := json_free_perm_aux (sizeOf t) t le_rfl
  refine ⟨hp, fun a ha => ?_⟩
  rw [hp.count_eq]
  exact List.count_eq_one_of_mem h ha

/-- Witness for C8 at the tree `{key : [str, scalar]}` with allocation ids
1 (entry region), 2 (key buffer), 3 (value box), 4 (element region),
5 (string buffer). -/
theorem json_free_exact_reclaim_witness :
    (owned (.obj 1 [(2, 3, .arr 4 [.str 5, .scalar])])).Nodup ∧
    ((json_free (.obj 1 [(2, 3, .arr 4 [.str 5, .scalar])])).Perm
        (owned (.obj 1 [(2, 3, .arr 4 [.str 5, .scalar])])) ∧
      ∀ a ∈ owned (.obj 1 [(2, 3, .arr 4 [.str 5, .scalar])]),
        (json_free (.obj 1 [(2, 3, .arr 4 [.str 5, .scalar])])).count a = 1) := by
  have he : owned (.obj 1 [(2, 3, .arr 4 [.str 5, .scalar])]) = [1, 2, 3, 4, 5] := by
    simp [owned, ownedEntries, ownedList]
  have h : (owned (.obj 1 [(2, 3, .arr 4 [.str 5, .scalar])])).Nodup := by
    rw [he]
    decide
  exact ⟨h, json_free_exact_reclaim _ h⟩

/-- C9: the depth-first recursion of `json_print` terminates on every
finite tree: running the same recursion with any fuel of at least
`sizeOf j` levels never hits the fuel bound and returns the total
function's answer. -/
theorem json_print_terminates (j : Json) (fuel : Nat) (h : sizeOf j ≤ fuel) :
    json_printF fuel j = json_print j :=
  json_printF_eq fuel j h

/-- Witness for C9 at the array `[null]` with fuel 2000. -/
theorem json_print_terminates_witness :
    sizeOf (Json.Array [Json.Null] 1) ≤ 2000 ∧
    json_printF 2000 (Json.Array [Json.Null] 1) =
      json_print (Json.Array [Json.Null] 1) := by
  have h : sizeOf (Json.Array [Json.Null] 1) ≤ 2000 := by decide
  exact ⟨h, json_print_terminates (Json.Array [Json.Null] 1) 2000 h⟩

/-- C10: `json_print` is deterministic — a function of the tree's visible
structure alone: any two trees with the same tags, payloads, lengths and
pointed-to contents (`structEq`, which ignores whatever sits in memory
beyond the `len` pointed-to elements) print identical byte sequences. -/
theorem json_print_deterministic (a b : Json) (h : structEq a b = true) :
    json_print a = json_print b :=
  structEq_print_aux (sizeOf a) a b le_rfl h

/-- Witness for C10: two one-element arrays whose regions differ past
`len = 1` print the same bytes. -/
theorem json_print_deterministic_witness :
    structEq (Json.Array [Json.Null, Json.True] 1)
        (Json.Array [Json.Null, Json.False] 1) = true ∧
    json_print (Json.Array [Json.Null, Json.True] 1) =
      json_print (Json.Array [Json.Null, Json.False] 1) := by
  have h : structEq (Json.Array [Json.Null, Json.True] 1)
      (Json.Array [Json.Null, Json.False] 1) = true := by
    simp [structEq, structEqElems]
  exact ⟨h, json_print_deterministic _ _ h⟩
